import Mathlib

/-!
Verification development for the study-planner engine
(`src/study_planner.py`).

Shallow embedding conventions:
* Python `dict` (insertion-ordered, unique keys) is an association list
  `List (Int × α)`; assignment to an existing key replaces the value in
  place (keeping its position), assignment to a fresh key appends.
* Python `int` is `Int`; Python floor division `//` is `Int.fdiv`.
* Timestamps produced by `datetime.datetime.now().isoformat()` are
  opaque strings supplied as an explicit `now` argument.
* The JSON data file is modelled by the `SaveData` record (the artifact's
  field structure); writing/reading the file is `save` / `applyLoadData`.
* `datetime.datetime.fromisoformat` comparison of `YYYY-MM-DD` strings
  coincides with lexicographic string comparison, which is how due-date
  keys are modelled.
-/

namespace StudyPlanner

/-- Embeds the Python `Task` object: the eight attributes set by
`Task.__init__` (plus `id`, assigned later by the planner). -/
structure Task where
  id : Option Int
  title : String
  category : String
  due_date : Option String
  priority : Int
  notes : String
  created_at : String
  completed_at : Option String
deriving DecidableEq, Repr

/-- Embeds `Task.__init__(title, category, due_date, priority, notes)`;
`now` stands for `datetime.datetime.now().isoformat()`. -/
def Task.init (title : String) (category : String) (due_date : Option String)
    (priority : Int) (notes : String) (now : String) : Task :=
  { id := none, title := title, category := category, due_date := due_date,
    priority := priority, notes := notes, created_at := now, completed_at := none }

/-- The dictionary produced by `Task.to_dict` / consumed by `Task.from_dict`.
Optional-typed fields conflate a JSON `null` value with a missing key,
exactly as Python `dict.get` does. -/
structure TaskDict where
  id : Option Int
  title : String
  category : Option String
  due_date : Option String
  priority : Option Int
  notes : Option String
  created_at : Option String
  completed_at : Option String
deriving DecidableEq, Repr

/-- Embeds `Task.to_dict`. -/
def Task.to_dict (t : Task) : TaskDict :=
  { id := t.id, title := t.title, category := some t.category,
    due_date := t.due_date, priority := some t.priority, notes := some t.notes,
    created_at := some t.created_at, completed_at := t.completed_at }

/-- Embeds `Task.from_dict`: builds a task from a dictionary, applying the
constructor defaults for missing optional keys.  `now` is consumed only when
`created_at` is absent (the constructor stamps it, then `d.get("created_at",
t.created_at)` keeps the stamp). -/
def Task.from_dict (d : TaskDict) (now : String) : Task :=
  let t := Task.init d.title (d.category.getD "General") d.due_date
    (d.priority.getD 3) (d.notes.getD "") now
  { t with
    id := d.id, created_at := d.created_at.getD t.created_at,
    completed_at := d.completed_at }

/-- Embeds the in-memory `Planner` fields (`self.tasks` is the pending
collection). -/
structure PlannerState where
  tasks : List (Int × Task)
  completed : List (Int × Task)
  next_id : Int
  xp : Int
  level : Int
  achievements : List String
deriving DecidableEq, Repr

/-- Embeds the JSON artifact written by `Planner.save`. -/
structure SaveData where
  next_id : Int
  xp : Int
  level : Int
  achievements : List String
  tasks : List (Int × TaskDict)
  completed : List (Int × TaskDict)
deriving DecidableEq, Repr

def XP_PER_TASK : Int := 20
def XP_TO_LEVEL : Int := 100

/-- The fresh state installed by `Planner._create_default_file`. -/
def defaultState : PlannerState :=
  { tasks := [], completed := [], next_id := 1, xp := 0, level := 1,
    achievements := [] }

/-- Association-list lookup: `d.get(k)` on a Python dict. -/
def alookup {α : Type} : List (Int × α) → Int → Option α
  | [], _ => none
  | (k, v) :: rest, k' => if k = k' then some v else alookup rest k'

/-- Association-list removal: `d.pop(k)`'s effect on a Python dict
(keys are unique in a dict, so removing the first hit is exact). -/
def aremove {α : Type} : List (Int × α) → Int → List (Int × α)
  | [], _ => []
  | (k, v) :: rest, k' => if k = k' then rest else (k, v) :: aremove rest k'

/-- The key list of an association list. -/
def akeys {α : Type} (l : List (Int × α)) : List Int := l.map Prod.fst

/-- Python dict assignment `d[k] = v`: replace in place when the key exists
(keeping its position), otherwise append.  Dict keys are unique, so
replacing the first occurrence is exact. -/
def dictInsert {α : Type} : List (Int × α) → Int → α → List (Int × α)
  | [], k, v => [(k, v)]
  | (k', v') :: rest, k, v =>
    if k' = k then (k, v) :: rest else (k', v') :: dictInsert rest k v

/-- `set.add(name)` on the achievements set (membership is what matters;
order of the backing list is immaterial). -/
def addAch (ach : List String) (name : String) : List String :=
  if name ∈ ach then ach else ach ++ [name]

/-- Embeds `Planner._check_achievements_on_completion`, abstracted over the
values it reads: `len(self.completed)`, `self.level`, `self.achievements`. -/
def checkAchievements (count : Nat) (lvl : Int) (ach : List String) : List String :=
  let a1 := if 1 ≤ count then addAch ach "First Task Done" else ach
  let a2 := if 5 ≤ count then addAch a1 "Getting Serious" else a1
  let a3 := if 10 ≤ count then addAch a2 "Study Machine" else a2
  let a4 := if 25 ≤ count then addAch a3 "Legendary Studier" else a3
  let a5 := if 2 ≤ lvl then addAch a4 "Level 2 Achieved" else a4
  if 5 ≤ lvl then addAch a5 "Level 5 Achieved" else a5

/-- Embeds `Planner.add_task`; returns the updated state and the new id. -/
def add_task (s : PlannerState) (title : String) (category : String)
    (due_date : Option String) (priority : Int) (notes : String)
    (now : String) : PlannerState × Int :=
  let t := { Task.init title category due_date priority notes now
              with id := some s.next_id }
  ({ s with tasks := dictInsert s.tasks s.next_id t, next_id := s.next_id + 1 },
   s.next_id)

/-- Embeds `Planner.get_task` (`self.tasks.get(id) or self.completed.get(id)`;
a `Task` object is always truthy, so `or` falls through only on `None`). -/
def get_task (s : PlannerState) (task_id : Int) : Option Task :=
  match alookup s.tasks task_id with
  | some t => some t
  | none => alookup s.completed task_id

/-- Embeds `Planner.delete_task`; returns the updated state and the removed
task (`None` when absent from both collections). -/
def delete_task (s : PlannerState) (task_id : Int) : PlannerState × Option Task :=
  match alookup s.tasks task_id with
  | some t => ({ s with tasks := aremove s.tasks task_id }, some t)
  | none =>
    match alookup s.completed task_id with
    | some t => ({ s with completed := aremove s.completed task_id }, some t)
    | none => (s, none)

/-- The keyword arguments accepted by `Planner.edit_task(id, **kwargs)`.
Every `Task` attribute passes the `hasattr` test, so all eight can be
targeted; `none` models an absent key or an explicit `None` value (both are
skipped by the `v is not None` guard).  Keys naming no attribute fail
`hasattr` and are dropped, so they need no representation. -/
structure EditKwargs where
  id : Option Int := none
  title : Option String := none
  category : Option String := none
  due_date : Option String := none
  priority : Option Int := none
  notes : Option String := none
  created_at : Option String := none
  completed_at : Option String := none
deriving DecidableEq, Repr

/-- The `setattr` loop of `edit_task` applied to one task. -/
def applyKwargs (t : Task) (kw : EditKwargs) : Task :=
  { id := match kw.id with | some v => some v | none => t.id,
    title := kw.title.getD t.title,
    category := kw.category.getD t.category,
    due_date := match kw.due_date with | some v => some v | none => t.due_date,
    priority := kw.priority.getD t.priority,
    notes := kw.notes.getD t.notes,
    created_at := kw.created_at.getD t.created_at,
    completed_at := match kw.completed_at with
      | some v => some v
      | none => t.completed_at }

/-- Embeds `Planner.edit_task`: mutates the task in whichever collection
holds it (pending is consulted first, as in `get_task`) and reports success. -/
def edit_task (s : PlannerState) (task_id : Int) (kw : EditKwargs) :
    PlannerState × Bool :=
  match alookup s.tasks task_id with
  | some t =>
    ({ s with tasks := dictInsert s.tasks task_id (applyKwargs t kw) }, true)
  | none =>
    match alookup s.completed task_id with
    | some t =>
      ({ s with completed := dictInsert s.completed task_id (applyKwargs t kw) },
       true)
    | none => (s, false)

/-- The success payload of `complete_task`
(`{"gained": ..., "leveled_up": ..., "prev_xp": ...}`). -/
structure CompleteResult where
  gained : Int
  leveled_up : Bool
  prev_xp : Int
deriving DecidableEq, Repr

/-- Embeds `Planner.complete_task`; `now` stands for the completion
timestamp.  Failure carries the literal message the code returns. -/
def complete_task (s : PlannerState) (task_id : Int) (now : String) :
    PlannerState × Except String CompleteResult :=
  match alookup s.tasks task_id with
  | none => (s, Except.error "Task not found or already completed.")
  | some t =>
    let tasks' := aremove s.tasks task_id
    let t' := { t with completed_at := some now }
    let completed' := dictInsert s.completed task_id t'
    let prev_xp := s.xp
    let xp' := s.xp + XP_PER_TASK
    let computed := xp'.fdiv XP_TO_LEVEL + 1
    let leveled_up := decide (s.level < computed)
    let level' := if s.level < computed then computed else s.level
    let ach' := checkAchievements completed'.length level' s.achievements
    ({ s with
       tasks := tasks', completed := completed', xp := xp',
       level := level', achievements := ach' },
     Except.ok { gained := XP_PER_TASK, leveled_up := leveled_up,
                 prev_xp := prev_xp })

/-- One step of a stable insertion sort: place `x` before the first element
`y` with `le x y = true`. -/
def sortInsert {α : Type} (le : α → α → Bool) (x : α) : List α → List α
  | [] => [x]
  | y :: ys => if le x y then x :: y :: ys else y :: sortInsert le x ys

/-- Stable sort by a boolean comparison; on a total preorder this produces
the same output as Python's stable `list.sort`. -/
def stableSort {α : Type} (le : α → α → Bool) : List α → List α
  | [] => []
  | x :: xs => sortInsert le x (stableSort le xs)

/-- The `sort_by == "priority"` key of `view_tasks`. -/
def prioLe (a b : Int × Task) : Bool := decide (a.2.priority ≤ b.2.priority)

/-- The `sort_by == "due"` key of `view_tasks`: `datetime.fromisoformat(d)`
when a due date is present, `datetime.max` otherwise.  Comparison of
well-formed `YYYY-MM-DD` strings is lexicographic, matching date order. -/
def dueLe (a b : Int × Task) : Bool :=
  match a.2.due_date, b.2.due_date with
  | some da, some db => decide (da ≤ db)
  | some _, none => true
  | none, some _ => false
  | none, none => true

/-- The fallback (`sort_by == "id"` or unrecognized) key of `view_tasks`. -/
def idLe (a b : Int × Task) : Bool := decide (a.1 ≤ b.1)

/-- Embeds `Planner.view_tasks`. -/
def view_tasks (s : PlannerState) (show_completed : Bool) (sort_by : String) :
    List (Int × Task) :=
  let items := if show_completed then s.completed else s.tasks
  if items.isEmpty then []
  else if sort_by = "priority" then stableSort prioLe items
  else if sort_by = "due" then stableSort dueLe items
  else stableSort idLe items

/-- Python `str.lower()` (per-character lowering). -/
def lowerStr (s : String) : String := String.mk (s.data.map Char.toLower)

/-- Does `hay` start with `needle`? -/
def leadsWith : List Char → List Char → Bool
  | [], _ => true
  | _ :: _, [] => false
  | n :: ns, h :: hs => decide (n = h) && leadsWith ns hs

/-- Python's substring test `needle in hay`, on character lists. -/
def hasSub (needle : List Char) : List Char → Bool
  | [] => leadsWith needle []
  | h :: hs => leadsWith needle (h :: hs) || hasSub needle hs

/-- `needle in hay` on strings. -/
def strContains (hay needle : String) : Bool := hasSub needle.data hay.data

/-- The per-task filter of `search_tasks` (the keyword argument is already
lowercased). -/
def keywordHits (kw : String) (t : Task) : Bool :=
  strContains (lowerStr t.title) kw || strContains (lowerStr t.notes) kw ||
    strContains (lowerStr t.category) kw

/-- Embeds `Planner.search_tasks`: scans the pending dict then the completed
dict, keeping matches in order. -/
def search_tasks (s : PlannerState) (keyword : String) : List (Int × Task) :=
  let kw := lowerStr keyword
  (s.tasks ++ s.completed).filter (fun p => keywordHits kw p.2)

/-- The record returned by `Planner.stats_summary`. -/
structure StatsSummary where
  pending : Nat
  completed : Nat
  total : Nat
  xp : Int
  level : Int
  achievements : List String
deriving DecidableEq, Repr

/-- Embeds `Planner.stats_summary`. -/
def stats_summary (s : PlannerState) : StatsSummary :=
  { pending := s.tasks.length, completed := s.completed.length,
    total := s.tasks.length + s.completed.length, xp := s.xp, level := s.level,
    achievements := stableSort (fun a b => decide (a ≤ b)) s.achievements }

/-- Embeds `Planner.save`: the artifact mirrors the in-memory state, with
tasks serialized through `to_dict`. -/
def PlannerState.save (s : PlannerState) : SaveData :=
  { next_id := s.next_id, xp := s.xp, level := s.level,
    achievements := s.achievements,
    tasks := s.tasks.map (fun p => (p.1, p.2.to_dict)),
    completed := s.completed.map (fun p => (p.1, p.2.to_dict)) }

/-- The successful parse branch of `Planner.load`, including the trailing
id-restoration loop `for tid, t in {**self.tasks, **self.completed}.items():
t.id = tid`.  The merged dict keeps the completed object on a duplicate key,
so a pending entry has its id restored only when its key is absent from the
completed collection. -/
def applyLoadData (d : SaveData) (now : String) : PlannerState :=
  { next_id := d.next_id, xp := d.xp, level := d.level,
    achievements := d.achievements,
    tasks := d.tasks.map (fun p =>
      (p.1, if p.1 ∈ akeys d.completed then Task.from_dict p.2 now
            else { Task.from_dict p.2 now with id := some p.1 })),
    completed := d.completed.map (fun p =>
      (p.1, { Task.from_dict p.2 now with id := some p.1 })) }

/-- The three storage conditions `Planner.load` distinguishes: no data file,
a file whose read/parse raises, and a well-parsed artifact. -/
inductive Storage where
  | missing
  | corrupt
  | good (d : SaveData)

/-- Embeds `Planner.load`, returning the resulting in-memory state and the
data-file content afterwards.  A missing file is first created with the
default state (`_create_default_file` saves it) and then parsed back; a
corrupt file is replaced by the default state, which is saved. -/
def load : Storage → String → PlannerState × SaveData
  | Storage.good d, now => (applyLoadData d now, d)
  | Storage.missing, now =>
    (applyLoadData (PlannerState.save defaultState) now,
     PlannerState.save defaultState)
  | Storage.corrupt, _ => (defaultState, PlannerState.save defaultState)

/-- The engine's mutating operations, for reasoning about call sequences.
`edit` carries the five documented mutable fields (the presentation layer
passes exactly these keyword arguments). -/
inductive Op where
  | add (title category : String) (due_date : Option String) (priority : Int)
      (notes : String) (now : String)
  | delete (task_id : Int)
  | edit (task_id : Int) (title category due_date : Option String)
      (priority : Option Int) (notes : Option String)
  | complete (task_id : Int) (now : String)

/-- Applies one mutating operation to a state. -/
def stepOp (s : PlannerState) : Op → PlannerState
  | Op.add title category due_date priority notes now =>
    (add_task s title category due_date priority notes now).1
  | Op.delete tid => (delete_task s tid).1
  | Op.edit tid ti c dd p no =>
    (edit_task s tid
      { title := ti, category := c, due_date := dd, priority := p,
        notes := no }).1
  | Op.complete tid now => (complete_task s tid now).1

/-- Runs a sequence of operations. -/
def run (s : PlannerState) : List Op → PlannerState
  | [] => s
  | op :: ops => run (stepOp s op) ops

/-- The ids returned by the `add` calls of a sequence, in call order. -/
def addedIds (s : PlannerState) : List Op → List Int
  | [] => []
  | Op.add title category due_date priority notes now :: ops =>
    s.next_id ::
      addedIds (stepOp s (Op.add title category due_date priority notes now)) ops
  | Op.delete tid :: ops => addedIds (stepOp s (Op.delete tid)) ops
  | Op.edit tid ti c dd p no :: ops =>
    addedIds (stepOp s (Op.edit tid ti c dd p no)) ops
  | Op.complete tid now :: ops => addedIds (stepOp s (Op.complete tid now)) ops

/-- Reachability from the fresh default state by engine operations, carrying
the largest completed-collection size ever observed (the completed count
"reached by complete calls", since only `complete` grows the collection). -/
inductive ReachM : PlannerState → Nat → Prop where
  | init : ReachM defaultState 0
  | step {s : PlannerState} {m : Nat} (h : ReachM s m) (op : Op) :
      ReachM (stepOp s op) (max m (stepOp s op).completed.length)

/-- A state the engine can reach from the fresh default state. -/
def Reach (s : PlannerState) : Prop := ∃ m, ReachM s m

/-! ### Association-list lemmas -/

theorem alookup_eq_none_iff {α : Type} (l : List (Int × α)) (k : Int) :
    alookup l k = none ↔ k ∉ akeys l := by
  induction l with
  | nil => simp [alookup, akeys]
  | cons p rest ih =>
    obtain ⟨k', v⟩ := p
    by_cases h : k' = k
    · subst h
      simp [alookup, akeys]
    · rw [alookup, if_neg h, ih,
        show akeys ((k', v) :: rest) = k' :: akeys rest from rfl]
      rw [List.mem_cons]
      constructor
      · intro hn hc
        rcases hc with hc | hc
        · exact h hc.symm
        · exact hn hc
      · intro hn hc
        exact hn (Or.inr hc)

theorem alookup_mem {α : Type} {l : List (Int × α)} {k : Int} {v : α}
    (h : alookup l k = some v) : (k, v) ∈ l := by
  induction l with
  | nil => simp [alookup] at h
  | cons p rest ih =>
    obtain ⟨k', v'⟩ := p
    by_cases hk : k' = k
    · subst hk
      simp [alookup] at h
      simp [h]
    · rw [alookup, if_neg hk] at h
      exact List.mem_cons_of_mem _ (ih h)

theorem alookup_dictInsert_self {α : Type} (l : List (Int × α)) (k : Int) (v : α) :
    alookup (dictInsert l k v) k = some v := by
  induction l with
  | nil => simp [dictInsert, alookup]
  | cons p rest ih =>
    obtain ⟨k', v'⟩ := p
    by_cases hk : k' = k
    · rw [dictInsert, if_pos hk, alookup, if_pos rfl]
    · rw [dictInsert, if_neg hk, alookup, if_neg hk]
      exact ih

theorem alookup_dictInsert_ne {α : Type} (l : List (Int × α)) (k k' : Int) (v : α)
    (h : k ≠ k') : alookup (dictInsert l k v) k' = alookup l k' := by
  induction l with
  | nil => simp [dictInsert, alookup, h]
  | cons p rest ih =>
    obtain ⟨k'', v''⟩ := p
    by_cases hk : k'' = k
    · subst hk
      rw [dictInsert, if_pos rfl, alookup, if_neg h, alookup, if_neg (by
        intro hc
        exact h (hc ▸ rfl))]
    · rw [dictInsert, if_neg hk]
      by_cases hk2 : k'' = k'
      · rw [alookup, if_pos hk2, alookup, if_pos hk2]
      · rw [alookup, if_neg hk2, alookup, if_neg hk2]
        exact ih

theorem akeys_dictInsert_of_mem {α : Type} {l : List (Int × α)} {k : Int} (v : α)
    (h : k ∈ akeys l) : akeys (dictInsert l k v) = akeys l := by
  induction l with
  | nil => simp [akeys] at h
  | cons p rest ih =>
    obtain ⟨k', v'⟩ := p
    by_cases hk : k' = k
    · subst hk
      rw [dictInsert, if_pos rfl]
      rfl
    · rw [dictInsert, if_neg hk]
      have hmem : k ∈ akeys rest := by
        have hh : k ∈ akeys ((k', v') :: rest) := h
        rw [show akeys ((k', v') :: rest) = k' :: akeys rest from rfl] at hh
        rcases List.mem_cons.1 hh with h' | h'
        · exact absurd h'.symm hk
        · exact h'
      simp only [akeys, List.map_cons]
      rw [show List.map Prod.fst (dictInsert rest k v) = akeys (dictInsert rest k v)
            from rfl,
        ih hmem]
      rfl

theorem akeys_dictInsert_of_not_mem {α : Type} {l : List (Int × α)} {k : Int} (v : α)
    (h : k ∉ akeys l) : akeys (dictInsert l k v) = akeys l ++ [k] := by
  induction l with
  | nil => simp [dictInsert, akeys]
  | cons p rest ih =>
    obtain ⟨k', v'⟩ := p
    have hk : k' ≠ k := by
      intro hc
      exact h (by simp [akeys, hc])
    rw [dictInsert, if_neg hk]
    have hrest : k ∉ akeys rest := by
      intro hc
      exact h (by simp [akeys]; exact Or.inr (by simpa [akeys] using hc))
    simp only [akeys, List.map_cons, List.cons_append, List.cons.injEq, true_and]
    exact ih hrest

theorem mem_dictInsert {α : Type} {l : List (Int × α)} {k : Int} {v : α}
    {p : Int × α} (h : p ∈ dictInsert l k v) : p = (k, v) ∨ p ∈ l := by
  induction l with
  | nil => simpa [dictInsert] using h
  | cons q rest ih =>
    obtain ⟨k', v'⟩ := q
    by_cases hk : k' = k
    · rw [dictInsert, if_pos hk] at h
      rcases List.mem_cons.1 h with h' | h'
      · exact Or.inl h'
      · exact Or.inr (List.mem_cons_of_mem _ h')
    · rw [dictInsert, if_neg hk] at h
      rcases List.mem_cons.1 h with h' | h'
      · exact Or.inr (by simp [h'])
      · rcases ih h' with h'' | h''
        · exact Or.inl h''
        · exact Or.inr (List.mem_cons_of_mem _ h'')

theorem length_dictInsert_of_mem {α : Type} {l : List (Int × α)} {k : Int} (v : α)
    (h : k ∈ akeys l) : (dictInsert l k v).length = l.length := by
  induction l with
  | nil => simp [akeys] at h
  | cons p rest ih =>
    obtain ⟨k', v'⟩ := p
    by_cases hk : k' = k
    · rw [dictInsert, if_pos hk]
      simp
    · rw [dictInsert, if_neg hk]
      have hmem : k ∈ akeys rest := by
        have hh : k ∈ akeys ((k', v') :: rest) := h
        rw [show akeys ((k', v') :: rest) = k' :: akeys rest from rfl] at hh
        rcases List.mem_cons.1 hh with h' | h'
        · exact absurd h'.symm hk
        · exact h'
      simp [ih hmem]

theorem length_dictInsert_of_not_mem {α : Type} {l : List (Int × α)} {k : Int}
    (v : α) (h : k ∉ akeys l) : (dictInsert l k v).length = l.length + 1 := by
  induction l with
  | nil => simp [dictInsert]
  | cons p rest ih =>
    obtain ⟨k', v'⟩ := p
    have hk : k' ≠ k := by
      intro hc
      exact h (by simp [akeys, hc])
    rw [dictInsert, if_neg hk]
    have hrest : k ∉ akeys rest := by
      intro hc
      exact h (by simp [akeys]; exact Or.inr (by simpa [akeys] using hc))
    simp [ih hrest]

theorem aremove_sublist {α : Type} (l : List (Int × α)) (k : Int) :
    List.Sublist (aremove l k) l := by
  induction l with
  | nil => simp [aremove]
  | cons p rest ih =>
    obtain ⟨k', v⟩ := p
    by_cases hk : k' = k
    · rw [aremove, if_pos hk]
      exact List.sublist_cons_self _ _
    · rw [aremove, if_neg hk]
      exact List.Sublist.cons₂ _ ih

theorem akeys_aremove_sublist {α : Type} (l : List (Int × α)) (k : Int) :
    List.Sublist (akeys (aremove l k)) (akeys l) :=
  List.Sublist.map Prod.fst (aremove_sublist l k)

theorem not_mem_akeys_aremove_self {α : Type} {l : List (Int × α)} {k : Int}
    (h : (akeys l).Nodup) : k ∉ akeys (aremove l k) := by
  induction l with
  | nil => simp [aremove, akeys]
  | cons p rest ih =>
    obtain ⟨k', v⟩ := p
    rw [show akeys ((k', v) :: rest) = k' :: akeys rest from rfl,
      List.nodup_cons] at h
    by_cases hk : k' = k
    · subst hk
      rw [aremove, if_pos rfl]
      exact h.1
    · rw [aremove, if_neg hk,
        show akeys ((k', v) :: aremove rest k) = k' :: akeys (aremove rest k)
          from rfl]
      intro hc
      rcases List.mem_cons.1 hc with h' | h'
      · exact hk h'.symm
      · exact ih h.2 h'

theorem alookup_aremove_self {α : Type} {l : List (Int × α)} {k : Int}
    (h : (akeys l).Nodup) : alookup (aremove l k) k = none :=
  (alookup_eq_none_iff _ _).2 (not_mem_akeys_aremove_self h)

theorem alookup_aremove_ne {α : Type} (l : List (Int × α)) (k k' : Int)
    (h : k ≠ k') : alookup (aremove l k) k' = alookup l k' := by
  induction l with
  | nil => simp [aremove]
  | cons p rest ih =>
    obtain ⟨k'', v⟩ := p
    by_cases hk : k'' = k
    · subst hk
      rw [aremove, if_pos rfl, alookup, if_neg h]
    · rw [aremove, if_neg hk]
      by_cases hk2 : k'' = k'
      · rw [alookup, if_pos hk2, alookup, if_pos hk2]
      · rw [alookup, if_neg hk2, alookup, if_neg hk2]
        exact ih

theorem mem_addAch (x : String) (l : List String) (n : String) :
    x ∈ addAch l n ↔ x ∈ l ∨ x = n := by
  unfold addAch
  split
  · rename_i h
    constructor
    · exact Or.inl
    · rintro (h' | rfl) <;> assumption
  · simp

theorem subset_addAch (l : List String) (n : String) : l ⊆ addAch l n := by
  intro x hx
  exact (mem_addAch x l n).2 (Or.inl hx)

theorem mem_ite_addAch (cond : Prop) [Decidable cond] (l : List String)
    (n x : String) :
    (x ∈ if cond then addAch l n else l) ↔ x ∈ l ∨ (cond ∧ x = n) := by
  split
  · rename_i h
    rw [mem_addAch]
    tauto
  · rename_i h
    tauto

/-- Full membership description of the achievement check. -/
theorem mem_checkAchievements (nm : String) (c : Nat) (lvl : Int)
    (ach : List String) :
    nm ∈ checkAchievements c lvl ach ↔
      nm ∈ ach ∨ (1 ≤ c ∧ nm = "First Task Done")
        ∨ (5 ≤ c ∧ nm = "Getting Serious")
        ∨ (10 ≤ c ∧ nm = "Study Machine")
        ∨ (25 ≤ c ∧ nm = "Legendary Studier")
        ∨ (2 ≤ lvl ∧ nm = "Level 2 Achieved")
        ∨ (5 ≤ lvl ∧ nm = "Level 5 Achieved") := by
  simp only [checkAchievements, mem_ite_addAch]
  tauto

theorem subset_checkAchievements (c : Nat) (lvl : Int) (ach : List String) :
    ach ⊆ checkAchievements c lvl ach := by
  intro x hx
  exact (mem_checkAchievements x c lvl ach).2 (Or.inl hx)

/-! ### Sorting lemmas -/

theorem perm_sortInsert {α : Type} (le : α → α → Bool) (x : α) (l : List α) :
    List.Perm (sortInsert le x l) (x :: l) := by
  induction l with
  | nil => rfl
  | cons y ys ih =>
    rw [sortInsert]
    split
    · rfl
    · exact (List.Perm.cons y ih).trans (List.Perm.swap x y ys)

theorem perm_stableSort {α : Type} (le : α → α → Bool) (l : List α) :
    List.Perm (stableSort le l) l := by
  induction l with
  | nil => rfl
  | cons x xs ih =>
    exact (perm_sortInsert le x (stableSort le xs)).trans (List.Perm.cons x ih)

theorem mem_sortInsert {α : Type} {le : α → α → Bool} {x z : α} {l : List α}
    (h : z ∈ sortInsert le x l) : z = x ∨ z ∈ l := by
  have := (perm_sortInsert le x l).mem_iff.1 h
  simpa using this

theorem pairwise_sortInsert {α : Type} {le : α → α → Bool}
    (htot : ∀ a b, le a b = true ∨ le b a = true)
    (htr : ∀ a b c, le a b = true → le b c = true → le a c = true)
    (x : α) {l : List α} (h : l.Pairwise (fun a b => le a b = true)) :
    (sortInsert le x l).Pairwise (fun a b => le a b = true) := by
  induction l with
  | nil => simp [sortInsert]
  | cons y ys ih =>
    rw [sortInsert]
    rcases List.pairwise_cons.1 h with ⟨hy, hys⟩
    split
    · rename_i hxy
      refine List.pairwise_cons.2 ⟨?_, h⟩
      intro z hz
      rcases List.mem_cons.1 hz with rfl | hz'
      · exact hxy
      · exact htr x y z hxy (hy z hz')
    · rename_i hxy
      have hyx : le y x = true := by
        rcases htot x y with h' | h'
        · exact absurd h' hxy
        · exact h'
      refine List.pairwise_cons.2 ⟨?_, ih hys⟩
      intro z hz
      rcases mem_sortInsert hz with rfl | hz'
      · exact hyx
      · exact hy z hz'

theorem pairwise_stableSort {α : Type} {le : α → α → Bool}
    (htot : ∀ a b, le a b = true ∨ le b a = true)
    (htr : ∀ a b c, le a b = true → le b c = true → le a c = true)
    (l : List α) :
    (stableSort le l).Pairwise (fun a b => le a b = true) := by
  induction l with
  | nil => simp [stableSort]
  | cons x xs ih => exact pairwise_sortInsert htot htr x ih

/-! ### Branch lemmas for the engine operations -/

theorem delete_task_pending {s : PlannerState} {tid : Int} {t : Task}
    (h : alookup s.tasks tid = some t) :
    delete_task s tid = ({ s with tasks := aremove s.tasks tid }, some t) := by
  simp [delete_task, h]

theorem delete_task_completed {s : PlannerState} {tid : Int} {t : Task}
    (h1 : alookup s.tasks tid = none) (h2 : alookup s.completed tid = some t) :
    delete_task s tid = ({ s with completed := aremove s.completed tid }, some t) := by
  simp [delete_task, h1, h2]

theorem delete_task_missing {s : PlannerState} {tid : Int}
    (h1 : alookup s.tasks tid = none) (h2 : alookup s.completed tid = none) :
    delete_task s tid = (s, none) := by
  simp [delete_task, h1, h2]

theorem edit_task_pending {s : PlannerState} {tid : Int} {kw : EditKwargs} {t : Task}
    (h : alookup s.tasks tid = some t) :
    edit_task s tid kw =
      ({ s with tasks := dictInsert s.tasks tid (applyKwargs t kw) }, true) := by
  simp [edit_task, h]

theorem edit_task_completed {s : PlannerState} {tid : Int} {kw : EditKwargs} {t : Task}
    (h1 : alookup s.tasks tid = none) (h2 : alookup s.completed tid = some t) :
    edit_task s tid kw =
      ({ s with completed := dictInsert s.completed tid (applyKwargs t kw) },
       true) := by
  simp [edit_task, h1, h2]

theorem edit_task_missing {s : PlannerState} {tid : Int} {kw : EditKwargs}
    (h1 : alookup s.tasks tid = none) (h2 : alookup s.completed tid = none) :
    edit_task s tid kw = (s, false) := by
  simp [edit_task, h1, h2]

theorem complete_task_not_found {s : PlannerState} {tid : Int} {now : String}
    (h : alookup s.tasks tid = none) :
    complete_task s tid now =
      (s, Except.error "Task not found or already completed.") := by
  simp [complete_task, h]

theorem complete_task_found {s : PlannerState} {tid : Int} {now : String} {t : Task}
    (h : alookup s.tasks tid = some t) :
    complete_task s tid now =
      ({ s with
         tasks := aremove s.tasks tid,
         completed := dictInsert s.completed tid { t with completed_at := some now },
         xp := s.xp + XP_PER_TASK,
         level :=
           if s.level < (s.xp + XP_PER_TASK).fdiv XP_TO_LEVEL + 1 then
             (s.xp + XP_PER_TASK).fdiv XP_TO_LEVEL + 1
           else s.level,
         achievements :=
           checkAchievements
             (dictInsert s.completed tid { t with completed_at := some now }).length
             (if s.level < (s.xp + XP_PER_TASK).fdiv XP_TO_LEVEL + 1 then
                (s.xp + XP_PER_TASK).fdiv XP_TO_LEVEL + 1
              else s.level)
             s.achievements },
       Except.ok
         { gained := XP_PER_TASK,
           leveled_up := decide (s.level < (s.xp + XP_PER_TASK).fdiv XP_TO_LEVEL + 1),
           prev_xp := s.xp }) := by
  simp [complete_task, h]

/-! ### The reachable-state invariant -/

/-- Structural invariant maintained by every engine operation: unique,
mutually disjoint keys bounded by `next_id`, every task carrying its own key
as `id`, and the cached `level` agreeing with `floor(xp / 100) + 1` over a
non-negative `xp`. -/
structure Inv (s : PlannerState) : Prop where
  nodupT : (akeys s.tasks).Nodup
  nodupC : (akeys s.completed).Nodup
  disj : ∀ k, k ∈ akeys s.tasks → k ∉ akeys s.completed
  boundT : ∀ k ∈ akeys s.tasks, k < s.next_id
  boundC : ∀ k ∈ akeys s.completed, k < s.next_id
  idsT : ∀ p ∈ s.tasks, p.2.id = some p.1
  idsC : ∀ p ∈ s.completed, p.2.id = some p.1
  lvl : s.level = s.xp.fdiv XP_TO_LEVEL + 1
  xpnn : 0 ≤ s.xp

theorem inv_default : Inv defaultState := by
  refine ⟨?_, ?_, ?_, ?_, ?_, ?_, ?_, ?_, ?_⟩ <;>
    simp [defaultState, akeys, XP_TO_LEVEL, Int.fdiv]

/-- The recomputed level after an XP award is at least the cached level. -/
theorem level_le_computed {xp lvl : Int} (h : lvl = xp.fdiv XP_TO_LEVEL + 1) :
    lvl ≤ (xp + XP_PER_TASK).fdiv XP_TO_LEVEL + 1 := by
  subst h
  have h100 : (0 : Int) ≤ XP_TO_LEVEL := by
    simp [XP_TO_LEVEL]
  have h1 : xp.fdiv XP_TO_LEVEL ≤ (xp + XP_PER_TASK).fdiv XP_TO_LEVEL := by
    rw [Int.fdiv_eq_ediv _ h100, Int.fdiv_eq_ediv _ h100]
    refine Int.ediv_le_ediv (by simp [XP_TO_LEVEL]) (by simp [XP_PER_TASK])
  omega

theorem level_update_eq {xp lvl : Int} (h : lvl = xp.fdiv XP_TO_LEVEL + 1) :
    (if lvl < (xp + XP_PER_TASK).fdiv XP_TO_LEVEL + 1 then
       (xp + XP_PER_TASK).fdiv XP_TO_LEVEL + 1
     else lvl) = (xp + XP_PER_TASK).fdiv XP_TO_LEVEL + 1 := by
  have hle := level_le_computed h
  split
  · rfl
  · omega

theorem nodup_append_singleton {α : Type} {l : List α} {x : α}
    (h : l.Nodup) (hx : x ∉ l) : (l ++ [x]).Nodup := by
  induction l with
  | nil => simp
  | cons y ys ih =>
    rcases List.nodup_cons.1 h with ⟨hy, hys⟩
    have hx' : x ∉ ys := fun hc => hx (List.mem_cons_of_mem _ hc)
    have hxy : x ≠ y := fun hc => hx (by simp [hc])
    refine List.nodup_cons.2 ⟨?_, ih hys hx'⟩
    intro hc
    rcases List.mem_append.1 hc with hc | hc
    · exact hy hc
    · simp at hc
      exact hxy hc.symm

theorem inv_tasks_sublist {s : PlannerState} {l' : List (Int × Task)} (hs : Inv s)
    (hsub : List.Sublist l' s.tasks) : Inv { s with tasks := l' } := by
  have hk : List.Sublist (akeys l') (akeys s.tasks) := List.Sublist.map _ hsub
  refine ⟨?_, hs.nodupC, ?_, ?_, hs.boundC, ?_, hs.idsC, hs.lvl, hs.xpnn⟩
  · exact List.Sublist.nodup hk hs.nodupT
  · intro k hkmem
    exact hs.disj k (hk.subset hkmem)
  · intro k hkmem
    exact hs.boundT k (hk.subset hkmem)
  · intro p hp
    exact hs.idsT p (hsub.subset hp)

theorem inv_completed_sublist {s : PlannerState} {l' : List (Int × Task)}
    (hs : Inv s) (hsub : List.Sublist l' s.completed) :
    Inv { s with completed := l' } := by
  have hk : List.Sublist (akeys l') (akeys s.completed) := List.Sublist.map _ hsub
  refine ⟨hs.nodupT, ?_, ?_, hs.boundT, ?_, hs.idsT, ?_, hs.lvl, hs.xpnn⟩
  · exact List.Sublist.nodup hk hs.nodupC
  · intro k hkmem hc
    exact hs.disj k hkmem (hk.subset hc)
  · intro k hkmem
    exact hs.boundC k (hk.subset hkmem)
  · intro p hp
    exact hs.idsC p (hsub.subset hp)

theorem inv_add {s : PlannerState} (hs : Inv s) (title category : String)
    (due_date : Option String) (priority : Int) (notes : String) (now : String) :
    Inv (add_task s title category due_date priority notes now).1 := by
  have hfresh : s.next_id ∉ akeys s.tasks :=
    fun h => absurd (hs.boundT _ h) (lt_irrefl _)
  have hfreshC : s.next_id ∉ akeys s.completed :=
    fun h => absurd (hs.boundC _ h) (lt_irrefl _)
  have hkeys := akeys_dictInsert_of_not_mem
    { Task.init title category due_date priority notes now
        with id := some s.next_id } hfresh
  dsimp only [add_task]
  refine ⟨?_, hs.nodupC, ?_, ?_, ?_, ?_, hs.idsC, hs.lvl, hs.xpnn⟩
  · dsimp only
    rw [hkeys]
    exact nodup_append_singleton hs.nodupT hfresh
  · intro k hk
    dsimp only at hk ⊢
    rw [hkeys] at hk
    rcases List.mem_append.1 hk with hc | hc
    · exact hs.disj k hc
    · simp at hc
      subst hc
      exact hfreshC
  · intro k hk
    dsimp only at hk ⊢
    rw [hkeys] at hk
    rcases List.mem_append.1 hk with hc | hc
    · exact lt_trans (hs.boundT k hc) (by omega)
    · simp at hc
      omega
  · intro k hk
    dsimp only at hk ⊢
    exact lt_trans (hs.boundC k hk) (by omega)
  · intro p hp
    dsimp only at hp
    rcases mem_dictInsert hp with rfl | hp'
    · rfl
    · exact hs.idsT p hp'

theorem inv_delete {s : PlannerState} (hs : Inv s) (tid : Int) :
    Inv (delete_task s tid).1 := by
  rcases h1 : alookup s.tasks tid with _ | t
  · rcases h2 : alookup s.completed tid with _ | t
    · rw [delete_task_missing h1 h2]
      exact hs
    · rw [delete_task_completed h1 h2]
      exact inv_completed_sublist hs (aremove_sublist _ _)
  · rw [delete_task_pending h1]
    exact inv_tasks_sublist hs (aremove_sublist _ _)

theorem inv_edit {s : PlannerState} (hs : Inv s) (tid : Int) (kw : EditKwargs)
    (hid : kw.id = none) : Inv (edit_task s tid kw).1 := by
  rcases h1 : alookup s.tasks tid with _ | t
  · rcases h2 : alookup s.completed tid with _ | t
    · rw [edit_task_missing h1 h2]
      exact hs
    · rw [edit_task_completed h1 h2]
      have hmemk : tid ∈ akeys s.completed :=
        List.mem_map_of_mem Prod.fst (alookup_mem h2)
      have hkeys := akeys_dictInsert_of_mem (applyKwargs t kw) hmemk
      have hidnew : (applyKwargs t kw).id = t.id := by
        simp [applyKwargs, hid]
      refine ⟨hs.nodupT, ?_, ?_, hs.boundT, ?_, hs.idsT, ?_, hs.lvl, hs.xpnn⟩
      · dsimp only
        rw [hkeys]
        exact hs.nodupC
      · intro k hk
        dsimp only at hk ⊢
        rw [hkeys]
        exact hs.disj k hk
      · intro k hk
        dsimp only at hk ⊢
        rw [hkeys] at hk
        exact hs.boundC k hk
      · intro p hp
        dsimp only at hp
        rcases mem_dictInsert hp with rfl | hp'
        · show (applyKwargs t kw).id = some tid
          rw [hidnew]
          exact hs.idsC (tid, t) (alookup_mem h2)
        · exact hs.idsC p hp'
  · rw [edit_task_pending h1]
    have hmemk : tid ∈ akeys s.tasks :=
      List.mem_map_of_mem Prod.fst (alookup_mem h1)
    have hkeys := akeys_dictInsert_of_mem (applyKwargs t kw) hmemk
    have hidnew : (applyKwargs t kw).id = t.id := by
      simp [applyKwargs, hid]
    refine ⟨?_, hs.nodupC, ?_, ?_, hs.boundC, ?_, hs.idsC, hs.lvl, hs.xpnn⟩
    · dsimp only
      rw [hkeys]
      exact hs.nodupT
    · intro k hk
      dsimp only at hk ⊢
      rw [hkeys] at hk
      exact hs.disj k hk
    · intro k hk
      dsimp only at hk ⊢
      rw [hkeys] at hk
      exact hs.boundT k hk
    · intro p hp
      dsimp only at hp
      rcases mem_dictInsert hp with rfl | hp'
      · show (applyKwargs t kw).id = some tid
        rw [hidnew]
        exact hs.idsT (tid, t) (alookup_mem h1)
      · exact hs.idsT p hp'

theorem inv_complete {s : PlannerState} (hs : Inv s) (tid : Int) (now : String) :
    Inv (complete_task s tid now).1 := by
  rcases h1 : alookup s.tasks tid with _ | t
  · rw [complete_task_not_found h1]
    exact hs
  · rw [complete_task_found h1]
    have hmemk : tid ∈ akeys s.tasks :=
      List.mem_map_of_mem Prod.fst (alookup_mem h1)
    have hnotC : tid ∉ akeys s.completed := hs.disj tid hmemk
    have hkeysC := akeys_dictInsert_of_not_mem
      { t with completed_at := some now } hnotC
    have hsubT := akeys_aremove_sublist s.tasks tid
    refine ⟨?_, ?_, ?_, ?_, ?_, ?_, ?_, ?_, ?_⟩
    · exact List.Sublist.nodup hsubT hs.nodupT
    · dsimp only
      rw [hkeysC]
      exact nodup_append_singleton hs.nodupC hnotC
    · intro k hk
      dsimp only at hk ⊢
      rw [hkeysC]
      have hkT : k ∈ akeys s.tasks := hsubT.subset hk
      intro hc
      rcases List.mem_append.1 hc with hc | hc
      · exact hs.disj k hkT hc
      · simp at hc
        subst hc
        exact not_mem_akeys_aremove_self hs.nodupT hk
    · intro k hk
      dsimp only at hk ⊢
      exact hs.boundT k (hsubT.subset hk)
    · intro k hk
      dsimp only at hk ⊢
      rw [hkeysC] at hk
      rcases List.mem_append.1 hk with hc | hc
      · exact hs.boundC k hc
      · simp at hc
        subst hc
        exact hs.boundT _ hmemk
    · intro p hp
      dsimp only at hp
      exact hs.idsT p ((aremove_sublist _ _).subset hp)
    · intro p hp
      dsimp only at hp
      rcases mem_dictInsert hp with rfl | hp'
      · show ({ t with completed_at := some now }).id = some tid
        have hid : t.id = some tid := hs.idsT (tid, t) (alookup_mem h1)
        simpa using hid
      · exact hs.idsC p hp'
    · exact level_update_eq hs.lvl
    · have hx := hs.xpnn
      dsimp only
      simp only [XP_PER_TASK]
      omega

theorem inv_step {s : PlannerState} (hs : Inv s) (op : Op) : Inv (stepOp s op) := by
  cases op with
  | add title category due_date priority notes now =>
    exact inv_add hs title category due_date priority notes now
  | delete tid => exact inv_delete hs tid
  | edit tid ti c dd p no => exact inv_edit hs tid _ rfl
  | complete tid now => exact inv_complete hs tid now

theorem reachM_inv {s : PlannerState} {m : Nat} (h : ReachM s m) : Inv s := by
  induction h with
  | init => exact inv_default
  | step h op ih => exact inv_step ih op

theorem reach_inv {s : PlannerState} (h : Reach s) : Inv s := by
  obtain ⟨m, hm⟩ := h
  exact reachM_inv hm

/-! ### Frame lemmas: fields left untouched by each operation -/

theorem delete_task_frame (s : PlannerState) (tid : Int) :
    (delete_task s tid).1.next_id = s.next_id ∧
    (delete_task s tid).1.xp = s.xp ∧
    (delete_task s tid).1.level = s.level ∧
    (delete_task s tid).1.achievements = s.achievements ∧
    (delete_task s tid).1.completed.length ≤ s.completed.length := by
  rcases h1 : alookup s.tasks tid with _ | t
  · rcases h2 : alookup s.completed tid with _ | t
    · rw [delete_task_missing h1 h2]
      exact ⟨rfl, rfl, rfl, rfl, le_refl _⟩
    · rw [delete_task_completed h1 h2]
      exact ⟨rfl, rfl, rfl, rfl, List.Sublist.length_le (aremove_sublist _ _)⟩
  · rw [delete_task_pending h1]
    exact ⟨rfl, rfl, rfl, rfl, le_refl _⟩

theorem edit_task_frame (s : PlannerState) (tid : Int) (kw : EditKwargs) :
    (edit_task s tid kw).1.next_id = s.next_id ∧
    (edit_task s tid kw).1.xp = s.xp ∧
    (edit_task s tid kw).1.level = s.level ∧
    (edit_task s tid kw).1.achievements = s.achievements ∧
    (edit_task s tid kw).1.completed.length ≤ s.completed.length := by
  rcases h1 : alookup s.tasks tid with _ | t
  · rcases h2 : alookup s.completed tid with _ | t
    · rw [edit_task_missing h1 h2]
      exact ⟨rfl, rfl, rfl, rfl, le_refl _⟩
    · rw [edit_task_completed h1 h2]
      refine ⟨rfl, rfl, rfl, rfl, ?_⟩
      have hmemk : tid ∈ akeys s.completed :=
        List.mem_map_of_mem Prod.fst (alookup_mem h2)
      exact le_of_eq (length_dictInsert_of_mem _ hmemk)
  · rw [edit_task_pending h1]
    exact ⟨rfl, rfl, rfl, rfl, le_refl _⟩

/-! ### Claim theorems -/

/-- C2: `complete(id)` on an id not currently in the pending collection
(unknown, or already completed) fails with the literal
"Task not found or already completed." signal and leaves the whole state —
in particular `xp`, `level`, `pending`, `completed` — unchanged. -/
theorem complete_on_non_pending_fails (s : PlannerState) (tid : Int) (now : String)
    (h : tid ∉ akeys s.tasks) :
    complete_task s tid now =
      (s, Except.error "Task not found or already completed.") :=
  complete_task_not_found ((alookup_eq_none_iff _ _).2 h)

/-- Witness for C2 at a concrete input: id 1 on the fresh state. -/
theorem complete_on_non_pending_fails_witness :
    (1 : Int) ∉ akeys defaultState.tasks ∧
    complete_task defaultState 1 "T" =
      (defaultState, Except.error "Task not found or already completed.") :=
  ⟨by decide, complete_on_non_pending_fails defaultState 1 "T" (by decide)⟩

theorem next_id_step_le (s : PlannerState) (op : Op) :
    s.next_id ≤ (stepOp s op).next_id := by
  cases op with
  | add title category due_date priority notes now =>
    show s.next_id ≤ s.next_id + 1
    omega
  | delete tid =>
    exact le_of_eq (delete_task_frame s tid).1.symm
  | edit tid ti c dd p no =>
    exact le_of_eq (edit_task_frame s tid _).1.symm
  | complete tid now =>
    rcases h1 : alookup s.tasks tid with _ | t
    · rw [show stepOp s (Op.complete tid now) = (complete_task s tid now).1 from rfl,
        complete_task_not_found h1]
    · rw [show stepOp s (Op.complete tid now) = (complete_task s tid now).1 from rfl,
        complete_task_found h1]

theorem next_id_run_le (ops : List Op) : ∀ s : PlannerState,
    s.next_id ≤ (run s ops).next_id := by
  induction ops with
  | nil => intro s; exact le_refl _
  | cons op rest ih =>
    intro s
    exact le_trans (next_id_step_le s op) (ih (stepOp s op))

theorem addedIds_lower (ops : List Op) : ∀ (s : PlannerState) (x : Int),
    x ∈ addedIds s ops → s.next_id ≤ x := by
  induction ops with
  | nil => intro s x hx; simp [addedIds] at hx
  | cons op rest ih =>
    intro s x hx
    cases op with
    | add title category due_date priority notes now =>
      rw [addedIds] at hx
      rcases List.mem_cons.1 hx with rfl | hx'
      · exact le_refl _
      · have h1 := ih _ _ hx'
        have h2 := next_id_step_le s (Op.add title category due_date priority notes now)
        omega
    | delete tid =>
      rw [addedIds] at hx
      exact le_trans (next_id_step_le s (Op.delete tid)) (ih _ _ hx)
    | edit tid ti c dd p no =>
      rw [addedIds] at hx
      exact le_trans (next_id_step_le s (Op.edit tid ti c dd p no)) (ih _ _ hx)
    | complete tid now =>
      rw [addedIds] at hx
      exact le_trans (next_id_step_le s (Op.complete tid now)) (ih _ _ hx)

theorem addedIds_pairwise_lt (ops : List Op) : ∀ s : PlannerState,
    List.Pairwise (· < ·) (addedIds s ops) := by
  induction ops with
  | nil => intro s; simp [addedIds]
  | cons op rest ih =>
    intro s
    cases op with
    | add title category due_date priority notes now =>
      rw [addedIds]
      refine List.pairwise_cons.2 ⟨?_, ih _⟩
      intro x hx
      have h1 := addedIds_lower rest _ x hx
      have h2 : (stepOp s (Op.add title category due_date priority notes now)).next_id
          = s.next_id + 1 := rfl
      omega
    | delete tid => rw [addedIds]; exact ih _
    | edit tid ti c dd p no => rw [addedIds]; exact ih _
    | complete tid now => rw [addedIds]; exact ih _

/-- C3: over any sequence of engine operations, the ids handed out by `add`
are strictly increasing (hence never reused), and `next_id` is never
decremented — by a single operation (deletions included) or by a whole
sequence. -/
theorem add_ids_strictly_increasing (s : PlannerState) (ops : List Op) (op : Op) :
    List.Pairwise (· < ·) (addedIds s ops) ∧
    s.next_id ≤ (stepOp s op).next_id ∧
    s.next_id ≤ (run s ops).next_id :=
  ⟨addedIds_pairwise_lt ops s, next_id_step_le s op, next_id_run_le ops s⟩

/-- C10: no engine operation lowers the stored level, and `complete` changes
it only to the recomputed `floor(xp/100) + 1` when that strictly exceeds the
stored level. -/
theorem level_monotone (s : PlannerState) (op : Op) (tid : Int) (now : String) :
    s.level ≤ (stepOp s op).level ∧
    ((complete_task s tid now).1.level = s.level ∨
      (s.level < (s.xp + XP_PER_TASK).fdiv XP_TO_LEVEL + 1 ∧
        (complete_task s tid now).1.level =
          (s.xp + XP_PER_TASK).fdiv XP_TO_LEVEL + 1)) := by
  constructor
  · cases op with
    | add title category due_date priority notes now' => exact le_refl _
    | delete tid' =>
      obtain ⟨-, -, h3, -, -⟩ := delete_task_frame s tid'
      exact le_of_eq h3.symm
    | edit tid' ti c dd p no =>
      obtain ⟨-, -, h3, -, -⟩ := edit_task_frame s tid'
        { title := ti, category := c, due_date := dd, priority := p, notes := no }
      exact le_of_eq h3.symm
    | complete tid' now' =>
      rcases h1 : alookup s.tasks tid' with _ | t
      · rw [show stepOp s (Op.complete tid' now') = (complete_task s tid' now').1
            from rfl, complete_task_not_found h1]
      · rw [show stepOp s (Op.complete tid' now') = (complete_task s tid' now').1
            from rfl, complete_task_found h1]
        show s.level ≤ if s.level < (s.xp + XP_PER_TASK).fdiv XP_TO_LEVEL + 1
          then (s.xp + XP_PER_TASK).fdiv XP_TO_LEVEL + 1 else s.level
        split
        · omega
        · exact le_refl _
  · rcases h1 : alookup s.tasks tid with _ | t
    · rw [complete_task_not_found h1]
      exact Or.inl rfl
    · rw [complete_task_found h1]
      show (if s.level < (s.xp + XP_PER_TASK).fdiv XP_TO_LEVEL + 1
            then (s.xp + XP_PER_TASK).fdiv XP_TO_LEVEL + 1 else s.level) = s.level ∨ _
      split
      · rename_i hlt
        exact Or.inr ⟨hlt, rfl⟩
      · exact Or.inl rfl

/-- C7: on a missing or unreadable/corrupt data file, `load` comes back with
the fresh default state (`next_id = 1`, `xp = 0`, `level = 1`, empty pending,
completed and achievements) and immediately persists exactly that default
state; being a total function of the storage condition, it surfaces no
exception. -/
theorem load_failure_reinitializes (now : String) :
    load Storage.missing now = (defaultState, PlannerState.save defaultState) ∧
    load Storage.corrupt now = (defaultState, PlannerState.save defaultState) ∧
    defaultState.next_id = 1 ∧ defaultState.xp = 0 ∧ defaultState.level = 1 ∧
    defaultState.tasks = [] ∧ defaultState.completed = [] ∧
    defaultState.achievements = [] :=
  ⟨rfl, rfl, rfl, rfl, rfl, rfl, rfl, rfl⟩

theorem leadsWith_iff (needle : List Char) : ∀ hay : List Char,
    leadsWith needle hay = true ↔ ∃ r, hay = needle ++ r := by
  induction needle with
  | nil =>
    intro hay
    simp [leadsWith]
  | cons n ns ih =>
    intro hay
    cases hay with
    | nil =>
      simp [leadsWith]
    | cons h hs =>
      rw [leadsWith, Bool.and_eq_true, decide_eq_true_iff, ih hs]
      constructor
      · rintro ⟨rfl, r, rfl⟩
        exact ⟨r, rfl⟩
      · rintro ⟨r, hr⟩
        rw [List.cons_append] at hr
        injection hr with h1 h2
        exact ⟨h1.symm, r, h2⟩

theorem hasSub_iff (needle : List Char) : ∀ hay : List Char,
    hasSub needle hay = true ↔ ∃ l r, hay = l ++ needle ++ r := by
  intro hay
  induction hay with
  | nil =>
    rw [hasSub, leadsWith_iff]
    constructor
    · rintro ⟨r, hr⟩
      exact ⟨[], r, by simpa using hr⟩
    · rintro ⟨l, r, hr⟩
      have h3 : l = [] ∧ needle = [] ∧ r = [] := by simpa using hr.symm
      obtain ⟨rfl, rfl, rfl⟩ := h3
      exact ⟨[], rfl⟩
  | cons h hs ih =>
    rw [hasSub, Bool.or_eq_true, leadsWith_iff, ih]
    constructor
    · rintro (⟨r, hr⟩ | ⟨l, r, hr⟩)
      · exact ⟨[], r, by simpa using hr⟩
      · exact ⟨h :: l, r, by simp [hr]⟩
    · rintro ⟨l, r, hr⟩
      cases l with
      | nil =>
        exact Or.inl ⟨r, by simpa using hr⟩
      | cons x xs =>
        rw [List.cons_append, List.cons_append] at hr
        injection hr with h1 h2
        exact Or.inr ⟨xs, r, by simp [h2]⟩

/-- The match condition of `search_tasks`, stated as the spec reads it: the
lowercased keyword occurs as a contiguous substring of the lowercased title,
notes or category. -/
theorem keywordHits_iff (kw : String) (t : Task) :
    keywordHits (lowerStr kw) t = true ↔
      (∃ l r, (lowerStr t.title).data = l ++ (lowerStr kw).data ++ r) ∨
      (∃ l r, (lowerStr t.notes).data = l ++ (lowerStr kw).data ++ r) ∨
      (∃ l r, (lowerStr t.category).data = l ++ (lowerStr kw).data ++ r) := by
  rw [keywordHits, Bool.or_eq_true, Bool.or_eq_true, strContains, strContains,
    strContains, hasSub_iff, hasSub_iff, hasSub_iff]
  exact or_assoc

/-- C9: `search(keyword)` returns exactly the (id, Task) pairs, drawn from
the pending and completed collections, whose title, notes or category
contains the keyword as a case-insensitive substring (both sides
lowercased, occurrence as a contiguous character substring). -/
theorem search_returns_exactly_matches (s : PlannerState) (keyword : String)
    (p : Int × Task) :
    p ∈ search_tasks s keyword ↔
      (p ∈ s.tasks ∨ p ∈ s.completed) ∧
      ((∃ l r, (lowerStr p.2.title).data = l ++ (lowerStr keyword).data ++ r) ∨
       (∃ l r, (lowerStr p.2.notes).data = l ++ (lowerStr keyword).data ++ r) ∨
       (∃ l r, (lowerStr p.2.category).data = l ++ (lowerStr keyword).data ++ r)) := by
  rw [show search_tasks s keyword =
      (s.tasks ++ s.completed).filter (fun q => keywordHits (lowerStr keyword) q.2)
    from rfl]
  rw [List.mem_filter, List.mem_append, keywordHits_iff]

/-- A small concrete reachable state: the fresh planner after one `add`. -/
def sampleState : PlannerState :=
  stepOp defaultState (Op.add "Read Ch.1" "General" none 3 "" "T1")

/-- The task stored by that `add`. -/
def sampleTask : Task :=
  { id := some 1, title := "Read Ch.1", category := "General", due_date := none,
    priority := 3, notes := "", created_at := "T1", completed_at := none }

theorem sampleState_reach : Reach sampleState :=
  ⟨_, ReachM.step ReachM.init _⟩

/-- C1: on a reachable state, completing a pending id succeeds: the task
moves from pending to completed with `completed_at` stamped, `xp` grows by
exactly 20, the stored level afterwards equals `floor(xp/100) + 1`, and the
call returns the success payload carrying the XP gained, the level-up flag
(set exactly when the level increased), and the XP prior to the award. -/
theorem complete_pending_succeeds (s : PlannerState) (hreach : Reach s)
    (tid : Int) (t : Task) (h : alookup s.tasks tid = some t) (now : String) :
    alookup (complete_task s tid now).1.tasks tid = none ∧
    alookup (complete_task s tid now).1.completed tid =
      some { t with completed_at := some now } ∧
    (complete_task s tid now).1.xp = s.xp + XP_PER_TASK ∧
    (complete_task s tid now).1.level =
      (complete_task s tid now).1.xp.fdiv XP_TO_LEVEL + 1 ∧
    (complete_task s tid now).2 =
      Except.ok
        { gained := XP_PER_TASK,
          leveled_up := decide (s.level < (complete_task s tid now).1.level),
          prev_xp := s.xp } := by
  have inv := reach_inv hreach
  rw [complete_task_found h]
  refine ⟨alookup_aremove_self inv.nodupT, alookup_dictInsert_self _ _ _, rfl,
    ?_, ?_⟩
  · exact level_update_eq inv.lvl
  · show _ = Except.ok
      { gained := XP_PER_TASK,
        leveled_up := decide (s.level <
          (if s.level < (s.xp + XP_PER_TASK).fdiv XP_TO_LEVEL + 1 then
             (s.xp + XP_PER_TASK).fdiv XP_TO_LEVEL + 1
           else s.level)),
        prev_xp := s.xp }
    rw [level_update_eq inv.lvl]

/-- Witness for C1: completing id 1 of the one-task sample state. -/
theorem complete_pending_succeeds_witness :
    Reach sampleState ∧ alookup sampleState.tasks 1 = some sampleTask ∧
    (alookup (complete_task sampleState 1 "T2").1.tasks 1 = none ∧
     alookup (complete_task sampleState 1 "T2").1.completed 1 =
       some { sampleTask with completed_at := some "T2" } ∧
     (complete_task sampleState 1 "T2").1.xp = sampleState.xp + XP_PER_TASK ∧
     (complete_task sampleState 1 "T2").1.level =
       (complete_task sampleState 1 "T2").1.xp.fdiv XP_TO_LEVEL + 1 ∧
     (complete_task sampleState 1 "T2").2 =
       Except.ok
         { gained := XP_PER_TASK,
           leveled_up := decide (sampleState.level <
             (complete_task sampleState 1 "T2").1.level),
           prev_xp := sampleState.xp }) :=
  ⟨sampleState_reach, rfl,
    complete_pending_succeeds sampleState sampleState_reach 1 sampleTask rfl "T2"⟩

theorem ach_step_subset (s : PlannerState) (op : Op) :
    s.achievements ⊆ (stepOp s op).achievements := by
  cases op with
  | add title category due_date priority notes now => exact fun a ha => ha
  | delete tid =>
    obtain ⟨-, -, -, ha, -⟩ := delete_task_frame s tid
    rw [show stepOp s (Op.delete tid) = (delete_task s tid).1 from rfl, ha]
    exact fun a ha' => ha'
  | edit tid ti c dd p no =>
    obtain ⟨-, -, -, ha, -⟩ := edit_task_frame s tid
      { title := ti, category := c, due_date := dd, priority := p, notes := no }
    rw [show stepOp s (Op.edit tid ti c dd p no)
        = (edit_task s tid _).1 from rfl, ha]
    exact fun a ha' => ha'
  | complete tid now =>
    rcases h1 : alookup s.tasks tid with _ | t
    · rw [show stepOp s (Op.complete tid now) = (complete_task s tid now).1
          from rfl, complete_task_not_found h1]
      exact fun a ha' => ha'
    · rw [show stepOp s (Op.complete tid now) = (complete_task s tid now).1
          from rfl, complete_task_found h1]
      exact subset_checkAchievements _ _ _

theorem reachM_milestones {s : PlannerState} {m : Nat} (h : ReachM s m) :
    s.completed.length ≤ m ∧
    ("First Task Done" ∈ s.achievements ↔ 1 ≤ m) ∧
    ("Getting Serious" ∈ s.achievements ↔ 5 ≤ m) ∧
    ("Study Machine" ∈ s.achievements ↔ 10 ≤ m) ∧
    ("Legendary Studier" ∈ s.achievements ↔ 25 ≤ m) := by
  induction h with
  | init =>
    refine ⟨le_refl _, ?_, ?_, ?_, ?_⟩ <;> simp [defaultState]
  | @step s m h op ih =>
    obtain ⟨hlen, h1, h5, h10, h25⟩ := ih
    cases op with
    | add title category due_date priority notes now =>
      rw [show stepOp s (Op.add title category due_date priority notes now)
          = (add_task s title category due_date priority notes now).1 from rfl,
        show (add_task s title category due_date priority notes now).1.completed
          = s.completed from rfl,
        show (add_task s title category due_date priority notes now).1.achievements
          = s.achievements from rfl,
        Nat.max_eq_left hlen]
      exact ⟨hlen, h1, h5, h10, h25⟩
    | delete tid =>
      obtain ⟨-, -, -, ha, hlen'⟩ := delete_task_frame s tid
      rw [show stepOp s (Op.delete tid) = (delete_task s tid).1 from rfl, ha,
        Nat.max_eq_left (le_trans hlen' hlen)]
      exact ⟨le_trans hlen' hlen, h1, h5, h10, h25⟩
    | edit tid ti c dd p no =>
      obtain ⟨-, -, -, ha, hlen'⟩ := edit_task_frame s tid
        { title := ti, category := c, due_date := dd, priority := p, notes := no }
      rw [show stepOp s (Op.edit tid ti c dd p no) = (edit_task s tid _).1
          from rfl, ha,
        Nat.max_eq_left (le_trans hlen' hlen)]
      exact ⟨le_trans hlen' hlen, h1, h5, h10, h25⟩
    | complete tid now =>
      rcases hl : alookup s.tasks tid with _ | t
      · rw [show stepOp s (Op.complete tid now) = (complete_task s tid now).1
            from rfl, complete_task_not_found hl, Nat.max_eq_left hlen]
        exact ⟨hlen, h1, h5, h10, h25⟩
      · rw [show stepOp s (Op.complete tid now) = (complete_task s tid now).1
            from rfl, complete_task_found hl]
        dsimp only
        refine ⟨Nat.le_max_right _ _, ?_, ?_, ?_, ?_⟩
        · rw [mem_checkAchievements]
          simp [h1]
        · rw [mem_checkAchievements]
          simp [h5]
        · rw [mem_checkAchievements]
          simp [h10]
        · rw [mem_checkAchievements]
          simp [h25]

/-- C5: on any reachable state whose history reached a completed-count of
`m`, the milestone achievement names are present exactly when their
thresholds have been reached, and the achievements collection is monotonic:
no engine operation (deletions from `completed` included) ever removes a
name. -/
theorem achievement_milestones (s : PlannerState) (m : Nat) (h : ReachM s m) :
    ("First Task Done" ∈ s.achievements ↔ 1 ≤ m) ∧
    ("Getting Serious" ∈ s.achievements ↔ 5 ≤ m) ∧
    ("Study Machine" ∈ s.achievements ↔ 10 ≤ m) ∧
    ("Legendary Studier" ∈ s.achievements ↔ 25 ≤ m) ∧
    (∀ (s' : PlannerState) (op : Op),
      s'.achievements ⊆ (stepOp s' op).achievements) := by
  obtain ⟨-, h1, h5, h10, h25⟩ := reachM_milestones h
  exact ⟨h1, h5, h10, h25, ach_step_subset⟩

/-- Witness for C5 at the fresh state (count 0: no milestone present). -/
theorem achievement_milestones_witness :
    ("First Task Done" ∈ defaultState.achievements ↔ 1 ≤ 0) ∧
    ("Getting Serious" ∈ defaultState.achievements ↔ 5 ≤ 0) ∧
    ("Study Machine" ∈ defaultState.achievements ↔ 10 ≤ 0) ∧
    ("Legendary Studier" ∈ defaultState.achievements ↔ 25 ≤ 0) ∧
    (∀ (s' : PlannerState) (op : Op),
      s'.achievements ⊆ (stepOp s' op).achievements) :=
  achievement_milestones defaultState 0 ReachM.init

/-- Counterexample to C4 as frozen: `edit_task` guards updates only with
`hasattr`, so an explicit `completed_at` keyword argument does change the
`completed_at` of a pending task — the claim that `edit` never changes
`completed_at` fails at this input. -/
theorem edit_modifies_completed_at_counterexample :
    (edit_task sampleState 1 { completed_at := some "1999-01-01" }).2 = true ∧
    (alookup sampleState.tasks 1).map Task.completed_at = some none ∧
    (alookup (edit_task sampleState 1
        { completed_at := some "1999-01-01" }).1.tasks 1).map Task.completed_at
      = some (some "1999-01-01") := by
  decide

/-- C4 (amended): `edit` returns true exactly when the id resolves to a task
in either collection, and leaves the state unchanged otherwise.  When the
updates are drawn from the five documented mutable fields (no `id`,
`created_at` or `completed_at` keyword), the edited task keeps its `id`,
`created_at` and `completed_at`, each mutable field takes the non-null
update or stays unchanged, and nothing else in either collection moves. -/
theorem edit_restricted_spec (s : PlannerState) (tid : Int) (kw : EditKwargs)
    (hid : kw.id = none) (hca : kw.created_at = none)
    (hco : kw.completed_at = none) :
    ((edit_task s tid kw).2 = true ↔ (get_task s tid).isSome = true) ∧
    (get_task s tid = none → edit_task s tid kw = (s, false)) ∧
    (∀ t, alookup s.tasks tid = some t →
      (edit_task s tid kw).1.completed = s.completed ∧
      alookup (edit_task s tid kw).1.tasks tid = some (applyKwargs t kw) ∧
      (∀ k, k ≠ tid → alookup (edit_task s tid kw).1.tasks k = alookup s.tasks k)) ∧
    (∀ t, alookup s.tasks tid = none → alookup s.completed tid = some t →
      (edit_task s tid kw).1.tasks = s.tasks ∧
      alookup (edit_task s tid kw).1.completed tid = some (applyKwargs t kw) ∧
      (∀ k, k ≠ tid →
        alookup (edit_task s tid kw).1.completed k = alookup s.completed k)) ∧
    (∀ t : Task,
      (applyKwargs t kw).id = t.id ∧
      (applyKwargs t kw).created_at = t.created_at ∧
      (applyKwargs t kw).completed_at = t.completed_at ∧
      (applyKwargs t kw).title = kw.title.getD t.title ∧
      (applyKwargs t kw).category = kw.category.getD t.category ∧
      (applyKwargs t kw).due_date =
        (match kw.due_date with | some v => some v | none => t.due_date) ∧
      (applyKwargs t kw).priority = kw.priority.getD t.priority ∧
      (applyKwargs t kw).notes = kw.notes.getD t.notes) := by
  refine ⟨?_, ?_, ?_, ?_, ?_⟩
  · rcases h1 : alookup s.tasks tid with _ | t
    · rcases h2 : alookup s.completed tid with _ | t
      · rw [edit_task_missing h1 h2]
        simp [get_task, h1, h2]
      · rw [edit_task_completed h1 h2]
        simp [get_task, h1, h2]
    · rw [edit_task_pending h1]
      simp [get_task, h1]
  · intro hg
    rcases h1 : alookup s.tasks tid with _ | t
    · rcases h2 : alookup s.completed tid with _ | t
      · exact edit_task_missing h1 h2
      · rw [get_task, h1, h2] at hg
        exact absurd hg (by simp)
    · rw [get_task, h1] at hg
      exact absurd hg (by simp)
  · intro t ht
    rw [edit_task_pending ht]
    refine ⟨rfl, alookup_dictInsert_self _ _ _, ?_⟩
    intro k hk
    exact alookup_dictInsert_ne _ _ _ _ (fun hc => hk hc.symm)
  · intro t h1 h2
    rw [edit_task_completed h1 h2]
    refine ⟨rfl, alookup_dictInsert_self _ _ _, ?_⟩
    intro k hk
    exact alookup_dictInsert_ne _ _ _ _ (fun hc => hk hc.symm)
  · intro t
    refine ⟨?_, ?_, ?_, rfl, rfl, rfl, rfl, rfl⟩ <;>
      simp [applyKwargs, hid, hca, hco]

/-- Witness for C4 (amended): a title-only edit of the sample state. -/
theorem edit_restricted_spec_witness :
    ((edit_task sampleState 1 { title := some "New" }).2 = true ↔
      (get_task sampleState 1).isSome = true) ∧
    (get_task sampleState 1 = none →
      edit_task sampleState 1 { title := some "New" } = (sampleState, false)) ∧
    (∀ t, alookup sampleState.tasks 1 = some t →
      (edit_task sampleState 1 { title := some "New" }).1.completed
        = sampleState.completed ∧
      alookup (edit_task sampleState 1 { title := some "New" }).1.tasks 1
        = some (applyKwargs t { title := some "New" }) ∧
      (∀ k, k ≠ 1 →
        alookup (edit_task sampleState 1 { title := some "New" }).1.tasks k
          = alookup sampleState.tasks k)) ∧
    (∀ t, alookup sampleState.tasks 1 = none →
      alookup sampleState.completed 1 = some t →
      (edit_task sampleState 1 { title := some "New" }).1.tasks
        = sampleState.tasks ∧
      alookup (edit_task sampleState 1 { title := some "New" }).1.completed 1
        = some (applyKwargs t { title := some "New" }) ∧
      (∀ k, k ≠ 1 →
        alookup (edit_task sampleState 1 { title := some "New" }).1.completed k
          = alookup sampleState.completed k)) ∧
    (∀ t : Task,
      (applyKwargs t { title := some "New" }).id = t.id ∧
      (applyKwargs t { title := some "New" }).created_at = t.created_at ∧
      (applyKwargs t { title := some "New" }).completed_at = t.completed_at ∧
      (applyKwargs t { title := some "New" }).title
        = (some "New").getD t.title ∧
      (applyKwargs t { title := some "New" }).category
        = Option.getD none t.category ∧
      (applyKwargs t { title := some "New" }).due_date
        = (match (none : Option String) with
            | some v => some v | none => t.due_date) ∧
      (applyKwargs t { title := some "New" }).priority
        = Option.getD none t.priority ∧
      (applyKwargs t { title := some "New" }).notes
        = Option.getD none t.notes) :=
  edit_restricted_spec sampleState 1 { title := some "New" } rfl rfl rfl

theorem map_eq_self_of_mem {α : Type} {f : α → α} {l : List α}
    (h : ∀ p ∈ l, f p = p) : l.map f = l := by
  induction l with
  | nil => rfl
  | cons x xs ih =>
    rw [List.map_cons, h x (List.mem_cons_self x xs),
      ih (fun p hp => h p (List.mem_cons_of_mem _ hp))]

theorem akeys_map_dict {α β : Type} (l : List (Int × α)) (g : Int × α → β) :
    akeys (l.map (fun p => (p.1, g p))) = akeys l := by
  induction l with
  | nil => rfl
  | cons x xs ih =>
    rw [List.map_cons]
    show x.1 :: akeys (xs.map _) = x.1 :: akeys xs
    rw [ih]

theorem task_set_id_self {t : Task} {x : Option Int} (h : t.id = x) :
    { t with id := x } = t := by
  cases t
  simp_all

theorem from_dict_to_dict (t : Task) (now : String) :
    Task.from_dict (Task.to_dict t) now = t := rfl

/-- C6: `save()` followed by `load()` of the same artifact reproduces the
planner state exactly — same task ids and field values in both collections,
same `next_id`, `xp`, `level` and achievements (the timestamp `load` would
stamp on freshly constructed tasks is never consulted because every field is
present in the artifact). -/
theorem save_load_roundtrip (s : PlannerState) (h : Reach s) (now : String) :
    applyLoadData (PlannerState.save s) now = s := by
  have inv := reach_inv h
  obtain ⟨tasks, completed, next_id, xp, level, ach⟩ := s
  simp only [applyLoadData, PlannerState.save]
  congr 1
  · rw [List.map_map]
    apply map_eq_self_of_mem
    intro p hp
    have hpk : p.1 ∈ akeys tasks := List.mem_map_of_mem Prod.fst hp
    have hnot : p.1 ∉ akeys completed := inv.disj p.1 hpk
    have hck : akeys (completed.map fun q : Int × Task => (q.1, Task.to_dict q.2))
        = akeys completed := akeys_map_dict completed _
    dsimp only [Function.comp]
    rw [hck, if_neg hnot, from_dict_to_dict,
      task_set_id_self (inv.idsT p hp)]
  · rw [List.map_map]
    apply map_eq_self_of_mem
    intro p hp
    dsimp only [Function.comp]
    rw [from_dict_to_dict, task_set_id_self (inv.idsC p hp)]

/-- Witness for C6: round-tripping the one-task sample state. -/
theorem save_load_roundtrip_witness :
    Reach sampleState ∧
    applyLoadData (PlannerState.save sampleState) "NOW" = sampleState :=
  ⟨sampleState_reach, save_load_roundtrip sampleState sampleState_reach "NOW"⟩

theorem prioLe_total (a b : Int × Task) :
    prioLe a b = true ∨ prioLe b a = true := by
  unfold prioLe
  rcases le_total a.2.priority b.2.priority with h | h
  · exact Or.inl (by simpa using h)
  · exact Or.inr (by simpa using h)

theorem prioLe_trans (a b c : Int × Task) (hab : prioLe a b = true)
    (hbc : prioLe b c = true) : prioLe a c = true := by
  unfold prioLe at *
  simp only [decide_eq_true_iff] at *
  exact le_trans hab hbc

theorem idLe_total (a b : Int × Task) : idLe a b = true ∨ idLe b a = true := by
  unfold idLe
  rcases le_total a.1 b.1 with h | h
  · exact Or.inl (by simpa using h)
  · exact Or.inr (by simpa using h)

theorem idLe_trans (a b c : Int × Task) (hab : idLe a b = true)
    (hbc : idLe b c = true) : idLe a c = true := by
  unfold idLe at *
  simp only [decide_eq_true_iff] at *
  exact le_trans hab hbc

theorem dueLe_total (a b : Int × Task) : dueLe a b = true ∨ dueLe b a = true := by
  unfold dueLe
  rcases ha : a.2.due_date with _ | da <;> rcases hb : b.2.due_date with _ | db
  · exact Or.inl rfl
  · exact Or.inr rfl
  · exact Or.inl rfl
  · simp only [decide_eq_true_iff]
    exact le_total da db

theorem dueLe_trans (a b c : Int × Task) (hab : dueLe a b = true)
    (hbc : dueLe b c = true) : dueLe a c = true := by
  unfold dueLe at *
  rcases ha : a.2.due_date with _ | da <;> rcases hb : b.2.due_date with _ | db <;>
    rcases hc : c.2.due_date with _ | dc <;> simp_all
  exact le_trans hab hbc

/-- The order the spec asks of `sort_by="due"`: any task sorts before a task
without a due date, and tasks with due dates sort ascending by date. -/
def DueOrd (a b : Int × Task) : Prop :=
  b.2.due_date = none ∨
    ∃ da db, a.2.due_date = some da ∧ b.2.due_date = some db ∧ da ≤ db

theorem dueLe_to_DueOrd {a b : Int × Task} (h : dueLe a b = true) : DueOrd a b := by
  unfold dueLe at h
  unfold DueOrd
  rcases ha : a.2.due_date with _ | da <;> rcases hb : b.2.due_date with _ | db
  · exact Or.inl rfl
  · rw [ha, hb] at h
    simp at h
  · exact Or.inl rfl
  · rw [ha, hb] at h
    simp only [decide_eq_true_iff] at h
    exact Or.inr ⟨da, db, rfl, rfl, h⟩

theorem pairwise_and {α : Type} {R S : α → α → Prop} {l : List α}
    (h1 : l.Pairwise R) (h2 : l.Pairwise S) :
    l.Pairwise (fun a b => R a b ∧ S a b) := by
  induction l with
  | nil => exact List.Pairwise.nil
  | cons x xs ih =>
    rcases List.pairwise_cons.1 h1 with ⟨h1x, h1xs⟩
    rcases List.pairwise_cons.1 h2 with ⟨h2x, h2xs⟩
    exact List.pairwise_cons.2 ⟨fun z hz => ⟨h1x z hz, h2x z hz⟩, ih h1xs h2xs⟩

theorem view_tasks_priority_eq (s : PlannerState) (sc : Bool) :
    view_tasks s sc "priority" =
      if (if sc then s.completed else s.tasks).isEmpty then []
      else stableSort prioLe (if sc then s.completed else s.tasks) := by
  by_cases he : (if sc then s.completed else s.tasks).isEmpty <;>
    simp [view_tasks, he]

theorem view_tasks_due_eq (s : PlannerState) (sc : Bool) :
    view_tasks s sc "due" =
      if (if sc then s.completed else s.tasks).isEmpty then []
      else stableSort dueLe (if sc then s.completed else s.tasks) := by
  by_cases he : (if sc then s.completed else s.tasks).isEmpty <;>
    simp [view_tasks, he]

theorem view_tasks_other_eq (s : PlannerState) (sc : Bool) (sb : String)
    (h1 : sb ≠ "priority") (h2 : sb ≠ "due") :
    view_tasks s sc sb =
      if (if sc then s.completed else s.tasks).isEmpty then []
      else stableSort idLe (if sc then s.completed else s.tasks) := by
  by_cases he : (if sc then s.completed else s.tasks).isEmpty <;>
    simp [view_tasks, he, h1, h2]

theorem sorted_or_empty {α : Type} {le : α → α → Bool}
    (htot : ∀ a b, le a b = true ∨ le b a = true)
    (htr : ∀ a b c, le a b = true → le b c = true → le a c = true)
    (l : List α) :
    (if l.isEmpty then [] else stableSort le l).Pairwise
      (fun a b => le a b = true) := by
  split
  · exact List.Pairwise.nil
  · exact pairwise_stableSort htot htr l

theorem perm_or_empty {α : Type} (le : α → α → Bool) (l : List α) :
    List.Perm (if l.isEmpty then [] else stableSort le l) l := by
  split
  · rename_i he
    rw [List.isEmpty_iff.1 he]
  · exact perm_stableSort le l

/-- C8 (amended): `list` with `sort_by="priority"` returns the chosen
collection in non-decreasing numeric priority order; with `"due"` every task
with a due date precedes every task without one, ascending by date among
dated tasks; with `"id"` or any unrecognized value the result is in strictly
ascending id order.  (A call omitting `sort_by` uses the parameter default
`"priority"`, not id order — see the counterexample.)  Each mode returns a
permutation of the chosen collection. -/
theorem view_tasks_sorted (s : PlannerState) (hreach : Reach s) (sc : Bool)
    (sb : String) (hsb1 : sb ≠ "priority") (hsb2 : sb ≠ "due") :
    List.Pairwise (fun a b => a.2.priority ≤ b.2.priority)
      (view_tasks s sc "priority") ∧
    List.Pairwise DueOrd (view_tasks s sc "due") ∧
    List.Pairwise (fun a b => a.1 < b.1) (view_tasks s sc sb) ∧
    List.Perm (view_tasks s sc "priority")
      (if sc then s.completed else s.tasks) ∧
    List.Perm (view_tasks s sc "due") (if sc then s.completed else s.tasks) ∧
    List.Perm (view_tasks s sc sb) (if sc then s.completed else s.tasks) := by
  have inv := reach_inv hreach
  refine ⟨?_, ?_, ?_, ?_, ?_, ?_⟩
  · rw [view_tasks_priority_eq]
    exact (sorted_or_empty prioLe_total prioLe_trans _).imp
      (fun h => by simpa [prioLe] using h)
  · rw [view_tasks_due_eq]
    exact (sorted_or_empty dueLe_total dueLe_trans _).imp dueLe_to_DueOrd
  · rw [view_tasks_other_eq s sc sb hsb1 hsb2]
    have hperm := perm_or_empty idLe (if sc then s.completed else s.tasks)
    have hnodup : (akeys (if sc then s.completed else s.tasks)).Nodup := by
      cases sc
      · exact inv.nodupT
      · exact inv.nodupC
    have hkeysnd :
        (akeys (if (if sc then s.completed else s.tasks).isEmpty then []
          else stableSort idLe (if sc then s.completed else s.tasks))).Nodup := by
      have hmapped := hperm.map Prod.fst
      exact (List.Perm.nodup_iff hmapped).2 hnodup
    have hpne : List.Pairwise (fun a b : Int × Task => a.1 ≠ b.1)
        (if (if sc then s.completed else s.tasks).isEmpty then []
          else stableSort idLe (if sc then s.completed else s.tasks)) :=
      List.pairwise_map.1 hkeysnd
    have hple := sorted_or_empty idLe_total idLe_trans
      (if sc then s.completed else s.tasks)
    exact (pairwise_and hple hpne).imp
      (fun h => lt_of_le_of_ne (by simpa [idLe] using h.1) h.2)
  · rw [view_tasks_priority_eq]
    exact perm_or_empty prioLe _
  · rw [view_tasks_due_eq]
    exact perm_or_empty dueLe _
  · rw [view_tasks_other_eq s sc sb hsb1 hsb2]
    exact perm_or_empty idLe _

/-- Embeds a call `planner.view_tasks(show_completed)` that omits `sort_by`:
the Python parameter default is `"priority"`. -/
def view_tasks_default (s : PlannerState) (show_completed : Bool) :
    List (Int × Task) :=
  view_tasks s show_completed "priority"

/-- A reachable state with two pending tasks whose priority order (task 2
first) disagrees with id order. -/
def cexState : PlannerState :=
  stepOp (stepOp defaultState (Op.add "A" "General" none 5 "" "T1"))
    (Op.add "B" "General" none 1 "" "T2")

/-- Counterexample to C8 as frozen: calling `list` without `sort_by` uses the
Python default `sort_by="priority"`, so the result is in priority order
`[2, 1]`, not ascending id order. -/
theorem view_default_not_id_order_counterexample :
    (view_tasks_default cexState false).map Prod.fst = [2, 1] ∧
    ¬ List.Pairwise (fun a b : Int × Task => a.1 < b.1)
        (view_tasks_default cexState false) := by
  decide

/-- Witness for C8 (amended) on the sample state with `sort_by="id"`. -/
theorem view_tasks_sorted_witness :
    Reach sampleState ∧ ("id" : String) ≠ "priority" ∧ ("id" : String) ≠ "due" ∧
    (List.Pairwise (fun a b => a.2.priority ≤ b.2.priority)
      (view_tasks sampleState false "priority") ∧
    List.Pairwise DueOrd (view_tasks sampleState false "due") ∧
    List.Pairwise (fun a b => a.1 < b.1) (view_tasks sampleState false "id") ∧
    List.Perm (view_tasks sampleState false "priority")
      (if false then sampleState.completed else sampleState.tasks) ∧
    List.Perm (view_tasks sampleState false "due")
      (if false then sampleState.completed else sampleState.tasks) ∧
    List.Perm (view_tasks sampleState false "id")
      (if false then sampleState.completed else sampleState.tasks)) :=
  ⟨sampleState_reach, by decide, by decide,
    view_tasks_sorted sampleState sampleState_reach false "id" (by decide)
      (by decide)⟩

end StudyPlanner
